import Mathlib

/-!
Verification development for the loss-run text extraction pipeline
(`text_lob_llm_extractor.py`).

The program text is modelled as `List Char`.  Python strings, regular
expressions restricted to the exact patterns the program uses, and the
relevant functions (`_chunk_text_for_llm`, `extract_fields_llm`,
`extract_fields_llm_chunked`, `classify_lob`, `classify_lobs_multi`,
`_parse_money`, `_extract_carrier_from_text`, `heuristic_extract_wc`,
and the WC fallback step of `main`) are translated into executable Lean
definitions.  The remote model ("oracle") and the JSON decoder are
external collaborators and enter as explicit parameters: an oracle
response is `Option` data (with `none` standing for an exception or any
malformed outcome), and `json.loads` is a parameter returning an
`Option JVal`.  Character classes follow the ASCII behaviour of the
Python functions involved (`str.upper`, `str.lower`, `\d`, `\w`, `\s`),
which is the alphabet all inputs in this development use.
-/


/-- Program text: a Python string modelled as a list of characters. -/
abbrev Str := List Char

/-- Characters treated as whitespace by Python's `str.strip`, `str.split`
and the regex class `\s` (ASCII range). -/
def isPySpace (c : Char) : Bool :=
  c = ' ' ∨ c = '\t' ∨ c = '\n' ∨ c = '\r' ∨ c = Char.ofNat 11 ∨ c = Char.ofNat 12

/-- Python `str.lower` (ASCII). -/
def pyLower (cs : Str) : Str := cs.map Char.toLower

/-- Python `str.upper` (ASCII). -/
def pyUpper (cs : Str) : Str := cs.map Char.toUpper

/-- Python `str.strip()`: drop whitespace from both ends. -/
def pyStrip (cs : Str) : Str :=
  ((cs.dropWhile isPySpace).reverse.dropWhile isPySpace).reverse

/-- Python substring test `pat in hay`. -/
def containsSub (hay pat : Str) : Bool :=
  (List.range (hay.length + 1)).any fun i => pat.isPrefixOf (hay.drop i)

/-- Membership in the regex class `\w` (ASCII part), used for `\b`. -/
def isWordChar (c : Char) : Bool := c.isAlpha || c.isDigit || c = '_'

/-- A word boundary `\b` holds before a word character when the previous
character (if any) is not a word character. -/
def boundaryOk : Option Char → Bool
  | none => true
  | some c => !isWordChar c

/-- Python slice `text[s:e]`. -/
def sliceStr (cs : Str) (s e : Nat) : Str := (cs.drop s).take (e - s)

/-! ## Chunker (`_chunk_text_for_llm`) -/

/-- Python `text.rfind("\n", start, start + k)`: largest index `i` with
`start ≤ i < start + k` and `text[i] = '\n'`. -/
def rfindNlAux (text : Str) (start : Nat) : Nat → Option Nat
  | 0 => none
  | k + 1 =>
    if text.get? (start + k) = some '\n' then some (start + k)
    else rfindNlAux text start k

/-- Python `text.rfind("\n", start, stop)` (for `start ≤ stop`). -/
def rfindNl (text : Str) (start stop : Nat) : Option Nat :=
  rfindNlAux text start (stop - start)

/-- One loop step of `_chunk_text_for_llm`: the cut position for the chunk
beginning at `start`.  `end = min(start + max_chars, n)`; when `end < n`,
a backward newline search may move the cut to `nl`, but only when
`nl > start + 1000`. -/
def chunkEnd (text : Str) (maxChars start : Nat) : Nat :=
  if min (start + maxChars) text.length < text.length then
    match rfindNl text start (min (start + maxChars) text.length) with
    | some nl => if start + 1000 < nl then nl else min (start + maxChars) text.length
    | none => min (start + maxChars) text.length
  else min (start + maxChars) text.length

/-- The `while start < n` loop of `_chunk_text_for_llm`, with explicit
fuel.  `none` means the fuel was exhausted while the cursor had not
reached the end of the text, which is exactly the situation in which the
Python loop has not yet terminated. -/
def chunkAux (text : Str) (maxChars : Nat) : Nat → Nat → Option (List Str)
  | 0, start => if start < text.length then none else some []
  | fuel + 1, start =>
    if start < text.length then
      match chunkAux text maxChars fuel (chunkEnd text maxChars start) with
      | some rest => some (sliceStr text start (chunkEnd text maxChars start) :: rest)
      | none => none
    else some []

/-- `_chunk_text_for_llm(text, max_chars)`.  A fuel budget of
`text.length` is enough whenever `1 ≤ max_chars` (proved below); for
`max_chars = 0` and nonempty text the source loop never terminates and
the model returns `none`. -/
def chunk_text_for_llm (text : Str) (maxChars : Nat) : Option (List Str) :=
  chunkAux text maxChars text.length 0

/-! ## Per-chunk extraction results and the chunked merge
(`extract_fields_llm_chunked`) -/

/-- The dictionary `{"evaluation_date": ..., "carrier": ..., "claims": [...]}`
returned by the extraction functions.  The merge loop never inspects
individual claims, so the claim-record type is a parameter. -/
structure ExtractionResult (α : Type) where
  evaluation_date : Str
  carrier : Str
  claims : List α
deriving DecidableEq, Repr

/-- One iteration of the merge loop of `extract_fields_llm_chunked`:
`evaluation_date` and `carrier` are taken from `r` only when `r`'s value
is truthy (non-empty) and the accumulator's is empty, and `claims` is
extended with `r.claims`.  The loop body performs these three updates in
sequence; they touch disjoint fields, so they are rendered as one record
update. -/
def mergeStep {α : Type} (acc r : ExtractionResult α) : ExtractionResult α :=
  { evaluation_date :=
      if r.evaluation_date ≠ [] ∧ acc.evaluation_date = [] then r.evaluation_date
      else acc.evaluation_date,
    carrier := if r.carrier ≠ [] ∧ acc.carrier = [] then r.carrier else acc.carrier,
    claims := acc.claims ++ r.claims }

/-- The merge of `extract_fields_llm_chunked`, starting from the zero
result `{"evaluation_date": "", "carrier": "", "claims": []}` and folding
the per-chunk results in chunk order. -/
def mergeChunkResults {α : Type} (results : List (ExtractionResult α)) : ExtractionResult α :=
  results.foldl mergeStep ⟨[], [], []⟩

/-- `extract_fields_llm_chunked`, with the per-chunk single call
abstracted as `oracle`: chunk the text (substituting the whole text when
chunking yields no chunks), extract per chunk, merge. -/
def extract_fields_llm_chunked {α : Type} (oracle : Str → ExtractionResult α)
    (text : Str) : ExtractionResult α :=
  let chunks := (chunk_text_for_llm text 15000).getD []
  let chunks := if chunks = [] then [text] else chunks
  mergeChunkResults (chunks.map oracle)

/-- First non-empty string of a list, else the empty string — the
"first-known-wins" value a scalar field should take across chunks. -/
def firstNonEmptyStr : List Str → Str
  | [] => []
  | s :: rest => if s ≠ [] then s else firstNonEmptyStr rest

/-! ## LOB classification (`classify_lob`, `classify_lobs_multi`) -/

/-- Keyword list `auto_hits` of the classifier fallback (shared verbatim
by `classify_lob` and `classify_lobs_multi` in the source). -/
def auto_hits : List Str :=
  [" AUTO ".toList, " AUTOMOBILE".toList, " VEHICLE".toList, " VIN ".toList,
   " COLLISION".toList, " COMPREHENSIVE".toList, " LICENSE PLATE".toList,
   " TOW ".toList, " RENTAL".toList, " SUBROGATION".toList]

/-- Keyword list `gl_hits` of the classifier fallback. -/
def gl_hits : List Str :=
  [" GENERAL LIABILITY".toList, " GL ".toList, " PREMISES".toList,
   " PRODUCTS LIABILITY".toList, " CGL ".toList, " COVERAGE A".toList,
   " COVERAGE B".toList, " COVERAGE C".toList, " AGGREGATE LIMIT".toList]

/-- Keyword list `wc_hits` of the classifier fallback (the first entry is
the string " WORKERS' COMP", with the apostrophe written by code). -/
def wc_hits : List Str :=
  [" WORKERS".toList ++ Char.ofNat 39 :: " COMP".toList, " WORKERS COMP".toList,
   " WC ".toList, " TTD".toList, " TPD".toList, " INDEMNITY".toList,
   " MEDICAL ONLY".toList, " LOST TIME".toList, " OSHA ".toList,
   " EMPLOYEE ".toList, " EMPLOYER ".toList]

/-- Membership in the label set `{"AUTO", "GENERAL LIABILITY", "WC"}`. -/
def lobInSet (s : Str) : Bool :=
  s = "AUTO".toList ∨ s = "GENERAL LIABILITY".toList ∨ s = "WC".toList

/-- The keyword-scoring fallback of `classify_lob`: count keyword hits per
label on the uppercased text; `max(scores, key=...)` keeps the first label
with the maximal score in the order AUTO, GENERAL LIABILITY, WC; if the
best score is zero, default to AUTO. -/
def classify_lob_fallback (text : Str) : Str :=
  let t := pyUpper text
  let sA := auto_hits.countP fun k => containsSub t k
  let sGL := gl_hits.countP fun k => containsSub t k
  let sWC := wc_hits.countP fun k => containsSub t k
  let best := if sA < sGL then (if sGL < sWC then "WC".toList else "GENERAL LIABILITY".toList)
    else (if sA < sWC then "WC".toList else "AUTO".toList)
  let bestScore := if sA < sGL then (if sGL < sWC then sWC else sGL)
    else (if sA < sWC then sWC else sA)
  if 0 < bestScore then best else "AUTO".toList

/-- `classify_lob`, with the oracle call abstracted: `singleResp` is the
string obtained from the parsed JSON `lob` key (`none` = exception, no
JSON substring, parse failure, or a non-dict such that `obj.get` raised).
A stripped-and-uppercased in-set value is returned; anything else falls
through to the keyword-scoring heuristic. -/
def classify_lob (singleResp : Option Str) (text : Str) : Str :=
  match singleResp with
  | some raw =>
    if lobInSet (pyUpper (pyStrip raw)) then pyUpper (pyStrip raw)
    else classify_lob_fallback text
  | none => classify_lob_fallback text

/-- The cleaning loop of `classify_lobs_multi`: keep stripped-uppercased
values that are in the label set, deduplicated, insertion order kept. -/
def cleanLobs (raw : List Str) : List Str :=
  raw.foldl (fun cleaned v =>
    if lobInSet (pyUpper (pyStrip v)) ∧ pyUpper (pyStrip v) ∉ cleaned then
      cleaned ++ [pyUpper (pyStrip v)]
    else cleaned) []

/-- The per-label keyword detection of `classify_lobs_multi`'s fallback,
on the uppercased text `t`, appending labels in the order AUTO,
GENERAL LIABILITY, WC. -/
def keywordFound (t : Str) : List Str :=
  (if auto_hits.any (fun k => containsSub t k) then ["AUTO".toList] else []) ++
  (if gl_hits.any (fun k => containsSub t k) then ["GENERAL LIABILITY".toList] else []) ++
  (if wc_hits.any (fun k => containsSub t k) then ["WC".toList] else [])

/-- `classify_lobs_multi`, with the oracle call abstracted: `multiResp` is
the list of raw values of the parsed JSON `lobs` list (`none` = exception
or any outcome in which no list was obtained).  A non-empty cleaned list
is returned; otherwise per-label keyword detection; otherwise the
single-label classifier's result as a singleton (with the source's
defensive `["AUTO"]` for an empty string). -/
def classify_lobs_multi (multiResp : Option (List Str)) (singleResp : Option Str)
    (text : Str) : List Str :=
  if (match multiResp with | some raw => cleanLobs raw | none => []) ≠ [] then
    (match multiResp with | some raw => cleanLobs raw | none => [])
  else if keywordFound (pyUpper text) ≠ [] then keywordFound (pyUpper text)
  else if classify_lob singleResp text ≠ [] then [classify_lob singleResp text]
  else ["AUTO".toList]

/-! ## Single-chunk field extraction (`extract_fields_llm`) -/

/-- JSON values as produced by the external JSON decoder. -/
inductive JVal : Type
  | jstr (s : String)
  | jnum (n : Int)
  | jbool (b : Bool)
  | jnull
  | jarr (xs : List JVal)
  | jobj (kvs : List (String × JVal))

/-- Lookup of a key in a JSON object (`'claims' in obj` / `obj['claims']`). -/
def jlookup : List (String × JVal) → String → Option JVal
  | [], _ => none
  | (k, v) :: rest, key => if k = key then some v else jlookup rest key

/-- Python `dict.setdefault`: insert `(k, v)` at the end when `k` is absent. -/
def setdefaultKV (kvs : List (String × JVal)) (k : String) (v : JVal) :
    List (String × JVal) :=
  match jlookup kvs k with
  | some _ => kvs
  | none => kvs ++ [(k, v)]

/-- Python `content.find(c)`: index of the first occurrence. -/
def pyFindIdx : Str → Char → Option Nat
  | [], _ => none
  | c :: rest, t => if c = t then some 0 else (pyFindIdx rest t).map (· + 1)

/-- Python `content.rfind(c)`: index of the last occurrence. -/
def pyRfindIdx : Str → Char → Option Nat
  | [], _ => none
  | c :: rest, t =>
    match pyRfindIdx rest t with
    | some i => some (i + 1)
    | none => if c = t then some 0 else none

/-- The opening brace character. -/
def obraceChar : Char := Char.ofNat 123

/-- The closing brace character. -/
def cbraceChar : Char := Char.ofNat 125

/-- The zero-value result `{"evaluation_date": "", "carrier": "", "claims": []}`. -/
def zeroExtractJson : JVal :=
  JVal.jobj [("evaluation_date", JVal.jstr ""), ("carrier", JVal.jstr ""),
    ("claims", JVal.jarr [])]

/-- `extract_fields_llm`, with the oracle call and the JSON decoder
abstracted: `resp` is the oracle's text content (`none` = an exception
during the call) and `jloads` is `json.loads` (`none` = a decode error,
which the source catches like any other exception).  The brace-delimited
substring scan (`content.find('{')` / `content.rfind('}') + 1`) is
modelled exactly; the parsed object is accepted only when it is a dict
containing a `claims` key whose value is a list, in which case
`evaluation_date` and `carrier` are defaulted to `""` via `setdefault`;
every other outcome yields the zero-value result. -/
def extract_fields_llm (resp : Option Str) (jloads : Str → Option JVal) : JVal :=
  match resp with
  | none => zeroExtractJson
  | some content =>
    match pyFindIdx content obraceChar, pyRfindIdx content cbraceChar with
    | some s, some r =>
      if s < r + 1 then
        match jloads (sliceStr content s (r + 1)) with
        | some (JVal.jobj kvs) =>
          match jlookup kvs "claims" with
          | some (JVal.jarr _) =>
            JVal.jobj (setdefaultKV (setdefaultKV kvs "evaluation_date" (JVal.jstr ""))
              "carrier" (JVal.jstr ""))
          | _ => zeroExtractJson
        | _ => zeroExtractJson
      else zeroExtractJson
    | _, _ => zeroExtractJson

/-- The acceptance condition of `extract_fields_llm`: the call returned
content with a brace-delimited substring that decodes to a JSON object
whose `claims` key holds a list. -/
def llmAccepts (resp : Option Str) (jloads : Str → Option JVal) : Prop :=
  ∃ content s r kvs l, resp = some content ∧
    pyFindIdx content obraceChar = some s ∧
    pyRfindIdx content cbraceChar = some r ∧ s < r + 1 ∧
    jloads (sliceStr content s (r + 1)) = some (JVal.jobj kvs) ∧
    jlookup kvs "claims" = some (JVal.jarr l)

/-! ## Money normalization (`_parse_money`)

The source applies `re.findall` with the pattern
`[-$]?\d{1,3}(?:,\d{3})*(?:\.\d+)?|[-$]?\d+(?:\.\d+)?` and returns the
first match, or the stripped input when there is no match.  The pattern
has no lookaround, so matching at a position is the deterministic
maximal-munch scan modelled below (the quantifiers are greedy and the
following pattern parts can never force backtracking). -/

/-- The optional-sign class `[-$]`. -/
def isMoneySign (c : Char) : Bool := c = '-' ∨ c = '$'

/-- Consume `[-$]?`. -/
def takeSign : Str → Str × Str
  | [] => ([], [])
  | c :: rest => if isMoneySign c then ([c], rest) else ([], c :: rest)

/-- Consume `\d{1,3}` greedily: up to three digits of the leading digit
run (empty when there is no leading digit, in which case the alternative
fails). -/
def takeDigitsUpTo3 (cs : Str) : Str × Str :=
  ((cs.takeWhile Char.isDigit).take 3,
    cs.drop ((cs.takeWhile Char.isDigit).take 3).length)

/-- Consume `(?:,\d{3})*` greedily. -/
def takeCommaGroups : Str → Str × Str
  | c0 :: a :: b :: c :: rest =>
    if c0 = ',' ∧ a.isDigit ∧ b.isDigit ∧ c.isDigit then
      (c0 :: a :: b :: c :: (takeCommaGroups rest).1, (takeCommaGroups rest).2)
    else ([], c0 :: a :: b :: c :: rest)
  | cs => ([], cs)

/-- Consume `(?:\.\d+)?` greedily. -/
def takeFrac : Str → Str × Str
  | [] => ([], [])
  | c :: rest =>
    if c = '.' then
      (if rest.takeWhile Char.isDigit = [] then ([], c :: rest)
       else (c :: rest.takeWhile Char.isDigit,
         rest.drop (rest.takeWhile Char.isDigit).length))
    else ([], c :: rest)

/-- First alternative `[-$]?\d{1,3}(?:,\d{3})*(?:\.\d+)?` at a position:
the matched text and the remainder, or `none`. -/
def moneyAlt1 (cs : Str) : Option (Str × Str) :=
  if (takeDigitsUpTo3 (takeSign cs).2).1 = [] then none
  else some ((takeSign cs).1 ++ (takeDigitsUpTo3 (takeSign cs).2).1 ++
      (takeCommaGroups (takeDigitsUpTo3 (takeSign cs).2).2).1 ++
      (takeFrac (takeCommaGroups (takeDigitsUpTo3 (takeSign cs).2).2).2).1,
    (takeFrac (takeCommaGroups (takeDigitsUpTo3 (takeSign cs).2).2).2).2)

/-- Second alternative `[-$]?\d+(?:\.\d+)?` at a position (tried by the
regex engine only after the first alternative fails). -/
def moneyAlt2 (cs : Str) : Option (Str × Str) :=
  if (takeSign cs).2.takeWhile Char.isDigit = [] then none
  else some ((takeSign cs).1 ++ (takeSign cs).2.takeWhile Char.isDigit ++
      (takeFrac ((takeSign cs).2.drop
        ((takeSign cs).2.takeWhile Char.isDigit).length)).1,
    (takeFrac ((takeSign cs).2.drop
      ((takeSign cs).2.takeWhile Char.isDigit).length)).2)

/-- The pattern match attempted at one scan position. -/
def matchMoneyAt (cs : Str) : Option Str :=
  match moneyAlt1 cs with
  | some mr => some mr.1
  | none =>
    match moneyAlt2 cs with
    | some mr => some mr.1
    | none => none

/-- The left-to-right scan of `re.findall`, stopped at the first match. -/
def findMoney : Str → Option Str
  | [] => none
  | c :: rest =>
    match matchMoneyAt (c :: rest) with
    | some m => some m
    | none => findMoney rest

/-- `_parse_money`: the first matched substring, or the stripped input
when there is no match.  (`None` input maps to `""` in the source; this
model takes the already-stringified token.) -/
def parse_money (s : Str) : Str :=
  match findMoney s with
  | some m => m
  | none => pyStrip s

/-- The shape of a `(?:,\d{3})*` match: a sequence of comma-plus-three-digit
blocks. -/
inductive GroupsShape : Str → Prop
  | nil : GroupsShape []
  | cons (a b c : Char) (g : Str) : a.isDigit = true → b.isDigit = true →
      c.isDigit = true → GroupsShape g → GroupsShape (',' :: a :: b :: c :: g)

/-! ## Carrier inference from text (`_extract_carrier_from_text`)

Each of the three `re.search(..., re.IGNORECASE)` patterns is hand-compiled
into a position matcher; `searchPrev` scans positions left to right
(tracking the previous character for `\b`), which is `re.search`'s
leftmost-match rule.  Greedy quantifiers with their limited backtracking
are encoded explicitly where the following pattern part can reject. -/

/-- The capture class `[A-Za-z0-9 &'.\x2d/]` (the apostrophe written by code). -/
def carClassChar (c : Char) : Bool :=
  c.isAlpha || c.isDigit || c = ' ' || c = '&' || c = Char.ofNat 39 ||
    c = '.' || c = '-' || c = '/'

/-- Case-insensitive literal prefix match (the pattern is stored
lowercase); returns the remainder. -/
def ciStrip (pat : Str) (cs : Str) : Option Str :=
  if pyLower (cs.take pat.length) = pat then some (cs.drop pat.length) else none

/-- An alternation of literal keywords at one position, tried in order. -/
def firstCiKeyword (keys : List Str) (cs : Str) : Option Str :=
  keys.findSome? fun k => ciStrip k cs

/-- Backtracking of `\s*` followed by the capture `[...]+`: `\s*` yields
back characters (from its maximal run) until the capture class can match
at least one character.  Returns the start offset of the capture. -/
def bestClassStart (r2 : Str) : Option Nat :=
  (List.range ((r2.takeWhile isPySpace).length + 1)).reverse.findSome? fun L =>
    match r2.get? L with
    | some c => if carClassChar c then some L else none
    | none => none

/-- The greedy capture `([A-Za-z0-9 &'.\x2d/]+)` after `\s*`. -/
def captureClassPlus (r2 : Str) : Option Str :=
  match bestClassStart r2 with
  | some L => some ((r2.drop L).takeWhile carClassChar)
  | none => none

/-- The common tail `\s*[:\-]\s*([...]+)` of patterns 1 and 3. -/
def labelCapture (rest : Str) : Option Str :=
  match rest.dropWhile isPySpace with
  | c :: r2 => if c = ':' ∨ c = '-' then captureClassPlus r2 else none
  | [] => none

/-- Pattern 1 at one position:
`\b(?:carrier|company|insurer|provider)\s*[:\-]\s*([A-Za-z0-9 &'.\x2d/]+)`. -/
def p1MatchAt (prev : Option Char) (cs : Str) : Option Str :=
  if boundaryOk prev then
    match firstCiKeyword ["carrier".toList, "company".toList, "insurer".toList,
        "provider".toList] cs with
    | some rest => labelCapture rest
    | none => none
  else none

/-- The keyword alternation `(?:Policy\s*holder|Insured)` of pattern 3. -/
def p3KeyMatch (cs : Str) : Option Str :=
  match (match ciStrip "policy".toList cs with
    | some r => ciStrip "holder".toList (r.dropWhile isPySpace)
    | none => none) with
  | some rest => some rest
  | none => ciStrip "insured".toList cs

/-- Pattern 3 at one position:
`\b(?:Policy\s*holder|Insured)\s*[:\-]\s*([A-Za-z0-9 &'.\x2d/]+)`. -/
def p3MatchAt (prev : Option Char) (cs : Str) : Option Str :=
  if boundaryOk prev then
    match p3KeyMatch cs with
    | some rest => labelCapture rest
    | none => none
  else none

/-- The corporate suffix alternation of pattern 2, in source order
(matched case-insensitively). -/
def corpSuffixes : List Str :=
  ["insurance".toList, "ins".toList, "corp".toList, "corporation".toList,
   "company".toList, "co".toList, "llc".toList, "inc".toList]

/-- Whether the position starts with a non-word character or is the end
(the regex `\b` after a word character). -/
def nonWordOrEnd (cs : Str) : Bool :=
  match cs.head? with
  | none => true
  | some c => !isWordChar c

/-- Pattern 2 at one position:
`\b([A-Z][A-Za-z0-9 &'.\x2d/]+(?:Insurance|Ins|...|Inc))\b` under
`IGNORECASE` (so `[A-Z]` is any ASCII letter).  The greedy class run of
length `L` is tried from longest to shortest; for each `L` the suffix
alternation is tried in order, followed by the trailing `\b`. -/
def p2MatchAt (prev : Option Char) (cs : Str) : Option Str :=
  if boundaryOk prev then
    match cs with
    | c0 :: rest =>
      if c0.isAlpha then
        (List.range (rest.takeWhile carClassChar).length).reverse.findSome? fun Lm1 =>
          corpSuffixes.findSome? fun suf =>
            match ciStrip suf (rest.drop (Lm1 + 1)) with
            | some _ =>
              if nonWordOrEnd (rest.drop (Lm1 + 1 + suf.length)) then
                some (c0 :: rest.take (Lm1 + 1 + suf.length))
              else none
            | none => none
      else none
    | [] => none
  else none

/-- The scan of `re.search`: try the matcher at every position from the
left, tracking the previous character for `\b`. -/
def searchPrevAux (f : Option Char → Str → Option Str) :
    Option Char → Str → Option Str
  | prev, [] => f prev []
  | prev, c :: rest =>
    match f prev (c :: rest) with
    | some m => some m
    | none => searchPrevAux f (some c) rest

/-- `re.search` over the whole text. -/
def searchPrev (f : Option Char → Str → Option Str) (text : Str) : Option Str :=
  searchPrevAux f none text

/-- Pattern 3 stage of `_extract_carrier_from_text`. -/
def carrierStage3 (text : Str) : Str :=
  match searchPrev p3MatchAt text with
  | some g => if 2 < (pyStrip g).length then pyStrip g else []
  | none => []

/-- Pattern 2 stage of `_extract_carrier_from_text`. -/
def carrierStage2 (text : Str) : Str :=
  match searchPrev p2MatchAt text with
  | some g => if 2 < (pyStrip g).length then pyStrip g else carrierStage3 text
  | none => carrierStage3 text

/-- `_extract_carrier_from_text`: try the three patterns in order; accept
the first stripped capture longer than 2 characters; else `""`. -/
def extract_carrier_from_text (text : Str) : Str :=
  match searchPrev p1MatchAt text with
  | some g => if 2 < (pyStrip g).length then pyStrip g else carrierStage2 text
  | none => carrierStage2 text

/-! ## Evaluation-date patterns of `heuristic_extract_wc` -/

/-- Exactly `k` digits at the head (`\d{k}` as one quantifier trial). -/
def digitsTaken (k : Nat) (cs : Str) : Option Str :=
  if (cs.take k).length = k ∧ (cs.take k).all Char.isDigit then some (cs.take k)
  else none

/-- The separator class `[\x2d/]`. -/
def dateSep (c : Char) : Bool := c = '-' ∨ c = '/'

/-- The capture `([0-9]{1,2}[\x2d/][0-9]{1,2}[\x2d/][0-9]{2,4})`, greedy
trials in backtracking order. -/
def slashDateCapture (cs : Str) : Option Str :=
  [2, 1].findSome? fun a =>
    match digitsTaken a cs with
    | some d1 =>
      match cs.drop a with
      | s1 :: cs2 =>
        if dateSep s1 then
          [2, 1].findSome? fun b =>
            match digitsTaken b cs2 with
            | some d2 =>
              match cs2.drop b with
              | s2 :: cs4 =>
                if dateSep s2 then
                  [4, 3, 2].findSome? fun k =>
                    (digitsTaken k cs4).map fun d3 => d1 ++ s1 :: (d2 ++ s2 :: d3)
                else none
              | [] => none
            | none => none
        else none
      | [] => none
    | none => none

/-- The first date pattern at one position:
`Evaluation\s*Date\s*[:\-]\s*([0-9]{1,2}[\x2d/][0-9]{1,2}[\x2d/][0-9]{2,4})`
(case-insensitive, no word boundary). -/
def tryDate1At (cs : Str) : Option Str :=
  match ciStrip "evaluation".toList cs with
  | some r1 =>
    match ciStrip "date".toList (r1.dropWhile isPySpace) with
    | some r2 =>
      match r2.dropWhile isPySpace with
      | c :: r3 =>
        if c = ':' ∨ c = '-' then slashDateCapture (r3.dropWhile isPySpace) else none
      | [] => none
    | none => none
  | none => none

/-- Exactly `k` ASCII letters at the head. -/
def lettersTaken (k : Nat) (cs : Str) : Option Str :=
  if (cs.take k).length = k ∧ (cs.take k).all Char.isAlpha then some (cs.take k)
  else none

/-- The capture `([A-Za-z]{3,9}\s+\d{1,2},\s*\d{4})`, greedy trials in
backtracking order; the whitespace matched by `\s+` and `\s*` is part of
the capture. -/
def monthDateCapture (cs : Str) : Option Str :=
  [9, 8, 7, 6, 5, 4, 3].findSome? fun n =>
    match lettersTaken n cs with
    | some w =>
      if (cs.drop n).takeWhile isPySpace = [] then none
      else
        [2, 1].findSome? fun a =>
          match digitsTaken a (((cs.drop n).dropWhile isPySpace)) with
          | some d1 =>
            match ((cs.drop n).dropWhile isPySpace).drop a with
            | c :: cs3 =>
              if c = ',' then
                (digitsTaken 4 (cs3.dropWhile isPySpace)).map fun d4 =>
                  w ++ (cs.drop n).takeWhile isPySpace ++ d1 ++
                    c :: (cs3.takeWhile isPySpace ++ d4)
              else none
            | [] => none
          | none => none
    | none => none

/-- The second date pattern at one position:
`As\s*of\s*Date\s*[:\-]\s*([A-Za-z]{3,9}\s+\d{1,2},\s*\d{4})`. -/
def tryDate2At (cs : Str) : Option Str :=
  match ciStrip "as".toList cs with
  | some r1 =>
    match ciStrip "of".toList (r1.dropWhile isPySpace) with
    | some r2 =>
      match ciStrip "date".toList (r2.dropWhile isPySpace) with
      | some r3 =>
        match r3.dropWhile isPySpace with
        | c :: r4 =>
          if c = ':' ∨ c = '-' then monthDateCapture (r4.dropWhile isPySpace) else none
        | [] => none
      | none => none
    | none => none
  | none => none

/-- `re.search` for a matcher without `\b` at its start. -/
def searchPosAux (f : Str → Option Str) : Str → Option Str
  | [] => f []
  | c :: rest =>
    match f (c :: rest) with
    | some m => some m
    | none => searchPosAux f rest

/-- The evaluation-date loop of `heuristic_extract_wc`: the two date
patterns tried in order over the whole text, first match stripped. -/
def findEvalDate (text : Str) : Str :=
  match searchPosAux tryDate1At text with
  | some g => pyStrip g
  | none =>
    match searchPosAux tryDate2At text with
    | some g => pyStrip g
    | none => []

/-! ## Heuristic tabular extraction (`heuristic_extract_wc`) -/

/-- Python `str.splitlines` (ASCII terminators: `\n`, `\r`, `\r\n`,
vertical tab, form feed); a trailing terminator adds no empty line. -/
def pySplitlinesAux : Str → Str → List Str
  | cur, [] => if cur = [] then [] else [cur.reverse]
  | cur, '\r' :: '\n' :: rest => cur.reverse :: pySplitlinesAux [] rest
  | cur, c :: rest =>
    if c = '\r' ∨ c = '\n' ∨ c = Char.ofNat 11 ∨ c = Char.ofNat 12 then
      cur.reverse :: pySplitlinesAux [] rest
    else pySplitlinesAux (c :: cur) rest

/-- Python `text.splitlines()`. -/
def pySplitlines (text : Str) : List Str := pySplitlinesAux [] text

/-- The line list of `heuristic_extract_wc`:
`[ln.strip() for ln in text.splitlines() if ln.strip()]`. -/
def heurLines (text : Str) : List Str :=
  ((pySplitlines text).map pyStrip).filter (fun ln => ln ≠ [])

/-- `header_map['claim']`. -/
def claimKeys : List Str :=
  ["claim number".toList, "claim no".toList, "claim #".toList, "claim id".toList]

/-- `header_map['loss_date']`. -/
def lossDateKeys : List Str :=
  ["loss date".toList, "date of loss".toList, "accident date".toList]

/-- `header_map['indemnity_paid']`. -/
def indemnityPaidKeys : List Str :=
  ["indemnity paid".toList, "indemnity paid loss".toList, "ind paid".toList]

/-- `header_map['medical_paid']`. -/
def medicalPaidKeys : List Str :=
  ["medical paid".toList, "medical paid loss".toList, "med paid".toList]

/-- `header_map['indemnity_reserve']`. -/
def indemnityReserveKeys : List Str :=
  ["indemnity reserve".toList, "ind reserve".toList]

/-- `header_map['medical_reserve']`. -/
def medicalReserveKeys : List Str :=
  ["medical reserve".toList, "med reserve".toList]

/-- `header_map['alae']`. -/
def alaeKeys : List Str :=
  ["alae".toList, "allocated loss adjustment expense".toList, "expense".toList]

/-- The seven column-keyword groups in the dict's insertion order. -/
def headerGroups : List (List Str) :=
  [claimKeys, lossDateKeys, indemnityPaidKeys, medicalPaidKeys,
   indemnityReserveKeys, medicalReserveKeys, alaeKeys]

/-- The header score of a line: the number of keyword groups with at
least one keyword contained in the lowercased line. -/
def headerHits (ln : Str) : Nat :=
  headerGroups.countP fun keys => keys.any fun k => containsSub (pyLower ln) k

/-- The header scan: index of the first line whose score is at least 2. -/
def findHeaderIdxAux : Nat → List Str → Option Nat
  | _, [] => none
  | i, ln :: rest =>
    if 2 ≤ headerHits ln then some i else findHeaderIdxAux (i + 1) rest

/-- Header detection over the line list. -/
def findHeaderIdx (lines : List Str) : Option Nat := findHeaderIdxAux 0 lines

/-- The row tokenizer `re.split(r"\s{2,}|\t|\|", ln)` (before stripping
and filtering): a whitespace run of length at least 2, a single tab, or a
single pipe each end the current token.  The first argument is true while
the remainder of a whitespace-run delimiter is being consumed. -/
def splitRowAux : Bool → Str → Str → List Str
  | _, cur, [] => [cur.reverse]
  | true, cur, c :: rest =>
    if isPySpace c then splitRowAux true cur rest
    else if c = '\t' ∨ c = '|' then cur.reverse :: splitRowAux false [] rest
    else splitRowAux false (c :: cur) rest
  | false, cur, c :: rest =>
    if isPySpace c && (match rest.head? with | some c2 => isPySpace c2 | none => false) then
      cur.reverse :: splitRowAux true [] rest
    else if c = '\t' ∨ c = '|' then cur.reverse :: splitRowAux false [] rest
    else splitRowAux false (c :: cur) rest

/-- `[p.strip() for p in re.split(r"\s{2,}|\t|\|", ln) if p.strip()]`. -/
def splitParts (ln : Str) : List Str :=
  ((splitRowAux false [] ln).map pyStrip).filter (fun p => p ≠ [])

/-- Length of the digit run starting at index `i`. -/
def digitRunLenAt (p : Str) (i : Nat) : Nat :=
  ((p.drop i).takeWhile Char.isDigit).length

/-- Whether the character at index `i` exists and is a word character. -/
def isWordAt (p : Str) (i : Nat) : Bool :=
  match p.get? i with
  | some c => isWordChar c
  | none => false

/-- Whether the character at index `i` exists and is a digit. -/
def isDigitAt (p : Str) (i : Nat) : Bool :=
  match p.get? i with
  | some c => c.isDigit
  | none => false

/-- Whether the character at index `i` exists and is an ASCII letter. -/
def isAlphaAt (p : Str) (i : Nat) : Bool :=
  match p.get? i with
  | some c => c.isAlpha
  | none => false

/-- Whether the character at index `i` exists and is `-` or `/`. -/
def isSepAt (p : Str) (i : Nat) : Bool :=
  match p.get? i with
  | some c => dateSep c
  | none => false

/-- `re.search(r"\b\d{5,}\b|[A-Za-z]\d{4,}", p)` as a Boolean: either a
maximal digit run of length at least 5 enclosed in word boundaries, or a
letter followed by at least four digits. -/
def hasClaimNumPattern (p : Str) : Bool :=
  ((List.range p.length).any fun i =>
    isDigitAt p i && (decide (i = 0) || !isWordAt p (i - 1)) &&
      decide (5 ≤ digitRunLenAt p i) && !isWordAt p (i + digitRunLenAt p i)) ||
  ((List.range p.length).any fun i =>
    isAlphaAt p i && decide (4 ≤ digitRunLenAt p (i + 1)))

/-- `re.search(r"\b\d{1,2}[\x2d/]\d{1,2}[\x2d/]\d{2,4}\b", p)` as a
Boolean, quantifier trials made explicit. -/
def hasLossDatePattern (p : Str) : Bool :=
  (List.range p.length).any fun i =>
    (decide (i = 0) || !isWordAt p (i - 1)) &&
    ([2, 1].any fun a =>
      decide (a ≤ digitRunLenAt p i) && isSepAt p (i + a) &&
      ([2, 1].any fun b =>
        decide (b ≤ digitRunLenAt p (i + a + 1)) && isSepAt p (i + a + 1 + b) &&
        ([4, 3, 2].any fun k =>
          decide (k ≤ digitRunLenAt p (i + a + 1 + b + 1)) &&
          !isWordAt p (i + a + 1 + b + 1 + k))))

/-- A WC claim row, with the source's field names. -/
structure WCRow where
  claim_number : Str
  loss_date : Str
  Indemnity_paid_loss : Str
  Medical_paid_loss : Str
  Indemnity_reserve : Str
  Medical_reserve : Str
  ALAE : Str
deriving DecidableEq, Repr

/-- The freshly initialized row dict. -/
def emptyWCRow : WCRow := ⟨[], [], [], [], [], [], []⟩

/-- One iteration of the greedy, first-match-wins token classification:
claim number and loss date slots are filled only once (regex match on the
raw token); money slots are selected by keyword containment in the
lowercased token and set to the normalized value. -/
def assignToken (row : WCRow) (p : Str) : WCRow :=
  if row.claim_number = [] ∧ hasClaimNumPattern p then { row with claim_number := p }
  else if row.loss_date = [] ∧ hasLossDatePattern p then { row with loss_date := p }
  else if (indemnityPaidKeys.any fun k => containsSub (pyLower p) k) ∨
      containsSub (pyLower p) ("indemnity".toList) then
    { row with Indemnity_paid_loss := parse_money p }
  else if (medicalPaidKeys.any fun k => containsSub (pyLower p) k) ∨
      containsSub (pyLower p) ("medical".toList) then
    { row with Medical_paid_loss := parse_money p }
  else if indemnityReserveKeys.any fun k => containsSub (pyLower p) k then
    { row with Indemnity_reserve := parse_money p }
  else if medicalReserveKeys.any fun k => containsSub (pyLower p) k then
    { row with Medical_reserve := parse_money p }
  else if containsSub (pyLower p) ("alae".toList) ∨
      (alaeKeys.any fun k => containsSub (pyLower p) k) then
    { row with ALAE := parse_money p }
  else row

/-- The greedy assignment over a row's tokens, left to right. -/
def assignRow (parts : List Str) : WCRow := parts.foldl assignToken emptyWCRow

/-- The row loop over the lines after the header: tokenize, skip lines
with fewer than 3 parts, assign, and keep the row only when a claim
number was resolved. -/
def rowsFromLines (lines : List Str) : List WCRow :=
  lines.foldl (fun acc ln =>
    if (splitParts ln).length < 3 then acc
    else if (assignRow (splitParts ln)).claim_number ≠ [] then
      acc ++ [assignRow (splitParts ln)]
    else acc) []

/-- The row assembly without the claim-number drop rule: every line after
the header with at least 3 tokens yields its greedily assigned row.
Used to state which rows the drop rule excludes. -/
def candidateRows (lines : List Str) : List WCRow :=
  lines.filterMap fun ln =>
    if (splitParts ln).length < 3 then none else some (assignRow (splitParts ln))

/-- `heuristic_extract_wc`: carrier via the text cascade, evaluation date
via the two date patterns, and claims parsed from the lines after the
first header line (none when no header qualifies). -/
def heuristic_extract_wc (text : Str) : ExtractionResult WCRow :=
  { evaluation_date := findEvalDate text,
    carrier := extract_carrier_from_text text,
    claims :=
      match findHeaderIdx (heurLines text) with
      | some i => rowsFromLines ((heurLines text).drop (i + 1))
      | none => [] }

/-- The WC fallback step of `main`: when the detected LOB is WC and the
chunked extraction produced no claims, run the heuristic extractor,
substitute its scalar values only for empty ones, and replace `claims`
with the heuristic's list; otherwise the extraction result is untouched. -/
def applyWcFallback (lob : Str) (fields : ExtractionResult WCRow) (text : Str) :
    ExtractionResult WCRow :=
  if lob = "WC".toList ∧ fields.claims = [] then
    { evaluation_date :=
        if fields.evaluation_date ≠ [] then fields.evaluation_date
        else (heuristic_extract_wc text).evaluation_date,
      carrier :=
        if fields.carrier ≠ [] then fields.carrier
        else (heuristic_extract_wc text).carrier,
      claims := (heuristic_extract_wc text).claims }
  else fields

/-- The two-line scenario text: the WC header followed by one data row. -/
def wcScenarioText : Str :=
  ("Claim Number    Loss Date    Indemnity Paid    Medical Paid" ++
    "\n00012345    01/02/2021    $1,200.00    $300.50").toList

/-- A concrete text for exercising the drop rule: one row lacks any
claim-number token and one row has one. -/
def dropRuleText : Str :=
  ("Claim Number  Loss Date" ++ "\nab    01/02/2020    cd" ++
    "\n77777    03/04/2022    x").toList

/-- The row the drop-rule demonstration keeps. -/
def keptRow : WCRow := ⟨"77777".toList, "03/04/2022".toList, [], [], [], [], []⟩

/-- A concrete text whose header is the second non-empty line. -/
def headerDemoText : Str :=
  ("intro text" ++ "\nClaim Number  Loss Date" ++ "\n55555    01/02/2020    x").toList

/-! ## Theorems -/

/-! ## Chunker lemmas -/

theorem rfindNlAux_bounds {text : Str} {start : Nat} : ∀ {k nl : Nat},
    rfindNlAux text start k = some nl → start ≤ nl ∧ nl < start + k := by
  intro k
  induction k with
  | zero => intro nl h; simp [rfindNlAux] at h
  | succ k ih =>
    intro nl h
    rw [rfindNlAux] at h
    split at h
    · injection h with h
      omega
    · rcases ih h with ⟨h1, h2⟩
      omega

theorem rfindNl_bounds {text : Str} {start stop nl : Nat}
    (h : rfindNl text start stop = some nl) : start ≤ nl ∧ nl < stop := by
  rcases rfindNlAux_bounds h with ⟨h1, h2⟩
  constructor
  · exact h1
  · omega

theorem chunkEnd_cases (text : Str) (maxChars start : Nat) :
    chunkEnd text maxChars start = min (start + maxChars) text.length ∨
    (start + 1000 < chunkEnd text maxChars start ∧
      chunkEnd text maxChars start < min (start + maxChars) text.length) := by
  unfold chunkEnd
  split
  · split
    · next nl hnl =>
      rcases rfindNl_bounds hnl with ⟨h1, h2⟩
      split
      · right
        omega
      · left
        rfl
    · left
      rfl
  · left
    rfl

theorem chunkEnd_le (text : Str) (maxChars start : Nat) :
    chunkEnd text maxChars start ≤ min (start + maxChars) text.length := by
  rcases chunkEnd_cases text maxChars start with h | ⟨h1, h2⟩ <;> omega

theorem chunkEnd_gt {text : Str} {maxChars start : Nat}
    (hs : start < text.length) (hm : 1 ≤ maxChars) :
    start < chunkEnd text maxChars start := by
  rcases chunkEnd_cases text maxChars start with h | ⟨h1, h2⟩ <;> omega

theorem chunkEnd_min_size {text : Str} {maxChars start : Nat}
    (_hs : start < text.length) (hlt : chunkEnd text maxChars start < text.length) :
    min maxChars 1001 ≤ chunkEnd text maxChars start - start := by
  rcases chunkEnd_cases text maxChars start with h | ⟨h1, h2⟩ <;> omega

theorem chunkAux_spec {text : Str} {maxChars : Nat} (hm : 1 ≤ maxChars) :
    ∀ fuel start, text.length - start ≤ fuel →
    ∃ cs, chunkAux text maxChars fuel start = some cs ∧
      cs.flatten = text.drop start ∧
      (∀ c ∈ cs, c.length ≤ maxChars ∧ c ≠ []) ∧
      (∀ i c, i + 1 < cs.length → cs.get? i = some c → min maxChars 1001 ≤ c.length) ∧
      (cs = [] ↔ text.length ≤ start) := by
  intro fuel
  induction fuel with
  | zero =>
    intro start hf
    have hle : text.length ≤ start := by omega
    refine ⟨[], ?_, ?_, ?_, ?_, ?_⟩
    · simp [chunkAux, Nat.not_lt.mpr hle]
    · simp [List.drop_eq_nil_of_le hle]
    · intro c hc
      simp at hc
    · intro i c hi
      simp at hi
    · simp [hle]
  | succ fuel ih =>
    intro start hf
    by_cases hs : start < text.length
    · have he_gt : start < chunkEnd text maxChars start := chunkEnd_gt hs hm
      have he_le : chunkEnd text maxChars start ≤ min (start + maxChars) text.length :=
        chunkEnd_le text maxChars start
      rcases ih (chunkEnd text maxChars start) (by omega) with
        ⟨rest, hrest, hjoin, hlens, hmins, hnil⟩
      refine ⟨sliceStr text start (chunkEnd text maxChars start) :: rest, ?_, ?_, ?_, ?_, ?_⟩
      · rw [chunkAux, if_pos hs, hrest]
      · show sliceStr text start (chunkEnd text maxChars start) ++ rest.flatten = text.drop start
        rw [hjoin]
        unfold sliceStr
        have hdd : text.drop (chunkEnd text maxChars start) =
            (text.drop start).drop (chunkEnd text maxChars start - start) := by
          rw [List.drop_drop]
          congr 1
          omega
        rw [hdd, List.take_append_drop]
      · intro c hc
        rcases List.mem_cons.mp hc with hc | hc
        · subst hc
          have hlen : (sliceStr text start (chunkEnd text maxChars start)).length =
              chunkEnd text maxChars start - start := by
            unfold sliceStr
            rw [List.length_take, List.length_drop]
            omega
          constructor
          · rw [hlen]; omega
          · intro hemp
            rw [hemp] at hlen
            simp at hlen
            omega
        · exact hlens c hc
      · intro i c hi hget
        match i with
        | 0 =>
          simp at hget
          subst hget
          have hrne : rest ≠ [] := by
            intro h0
            rw [h0] at hi
            simp at hi
          have helt : chunkEnd text maxChars start < text.length := by
            by_contra hcon
            exact hrne (hnil.mpr (by omega))
          have := chunkEnd_min_size hs helt
          have hlen : (sliceStr text start (chunkEnd text maxChars start)).length =
              chunkEnd text maxChars start - start := by
            unfold sliceStr
            rw [List.length_take, List.length_drop]
            omega
          rw [hlen]
          omega
        | Nat.succ j =>
          simp only [List.get?] at hget
          exact hmins j c (by simp at hi; omega) hget
      · constructor
        · intro h
          exact absurd h (List.cons_ne_nil _ _)
        · intro h
          omega
    · have hle : text.length ≤ start := by omega
      refine ⟨[], ?_, ?_, ?_, ?_, ?_⟩
      · rw [chunkAux, if_neg hs]
      · simp [List.drop_eq_nil_of_le hle]
      · intro c hc
        simp at hc
      · intro i c hi
        simp at hi
      · simp [hle]

/-- C1.  For every input text and every `max_chars ≥ 1` (in particular the
default 15000), the chunker terminates, concatenating its chunks in order
reproduces the original text exactly, and every chunk has length at most
`max_chars`.  (For `max_chars = 0` the source loop never advances the
cursor and does not terminate; see the termination claim.) -/
theorem chunk_coverage : ∀ (text : Str) (maxChars : Nat), 1 ≤ maxChars →
    ∃ cs, chunk_text_for_llm text maxChars = some cs ∧
      cs.flatten = text ∧ ∀ c ∈ cs, c.length ≤ maxChars := by
  intro text maxChars hm
  rcases @chunkAux_spec text maxChars hm text.length 0 (by omega) with ⟨cs, h1, h2, h3, _, _⟩
  refine ⟨cs, h1, ?_, fun c hc => (h3 c hc).1⟩
  simpa using h2

theorem chunk_coverage_witness :
    (1 ≤ 5) ∧ ∃ cs, chunk_text_for_llm ("ab\ncdefgh".toList) 5 = some cs ∧
      cs.flatten = "ab\ncdefgh".toList ∧ ∀ c ∈ cs, c.length ≤ 5 :=
  ⟨by decide, chunk_coverage ("ab\ncdefgh".toList) 5 (by decide)⟩

/-- C10.  For `max_chars ≥ 1` the chunker terminates with chunks that are
all non-empty, and every chunk except possibly the last has length at
least `min max_chars 1001` (a backward newline cut is only accepted more
than 1000 characters past the cursor, otherwise the cut is at
`max_chars`).  For `max_chars = 0` and non-empty text the loop never
terminates: no fuel bound suffices. -/
theorem chunk_termination_minsize :
    (∀ (text : Str) (maxChars : Nat), 1 ≤ maxChars →
      ∃ cs, chunk_text_for_llm text maxChars = some cs ∧
        (∀ c ∈ cs, c ≠ []) ∧
        (∀ i c, i + 1 < cs.length → cs.get? i = some c → min maxChars 1001 ≤ c.length)) ∧
    (∀ (text : Str) (fuel : Nat), text ≠ [] → chunkAux text 0 fuel 0 = none) := by
  constructor
  · intro text maxChars hm
    rcases @chunkAux_spec text maxChars hm text.length 0 (by omega) with ⟨cs, h1, _, h3, h4, _⟩
    exact ⟨cs, h1, fun c hc => (h3 c hc).2, h4⟩
  · intro text fuel hne
    have hl : 0 < text.length := List.length_pos.mpr hne
    induction fuel with
    | zero => simp [chunkAux, hl]
    | succ fuel ihf =>
      have hend : chunkEnd text 0 0 = 0 := by
        simp [chunkEnd, rfindNl, rfindNlAux, hl]
      rw [chunkAux, if_pos hl, hend, ihf]

theorem chunk_termination_minsize_witness :
    ((1 ≤ 3) ∧ ∃ cs, chunk_text_for_llm ("abcdefg".toList) 3 = some cs ∧
        (∀ c ∈ cs, c ≠ []) ∧
        (∀ i c, i + 1 < cs.length → cs.get? i = some c → min 3 1001 ≤ c.length)) ∧
      ("z".toList ≠ [] ∧ chunkAux ("z".toList) 0 7 0 = none) :=
  ⟨⟨by decide, chunk_termination_minsize.1 ("abcdefg".toList) 3 (by decide)⟩,
    ⟨by decide, chunk_termination_minsize.2 ("z".toList) 7 (by decide)⟩⟩

theorem foldl_mergeStep_claims {α : Type} (l : List (ExtractionResult α)) :
    ∀ acc : ExtractionResult α,
      (l.foldl mergeStep acc).claims = acc.claims ++ (l.map (·.claims)).flatten := by
  induction l with
  | nil => intro acc; simp
  | cons r rest ih =>
    intro acc
    simp only [List.foldl_cons, List.map_cons, List.flatten_cons]
    rw [ih]
    simp only [mergeStep, List.append_assoc]

theorem foldl_mergeStep_evaluation_date {α : Type} (l : List (ExtractionResult α)) :
    ∀ acc : ExtractionResult α,
      (l.foldl mergeStep acc).evaluation_date =
        if acc.evaluation_date = [] then firstNonEmptyStr (l.map (·.evaluation_date))
        else acc.evaluation_date := by
  induction l with
  | nil =>
    intro acc
    simp only [List.foldl_nil, List.map_nil, firstNonEmptyStr]
    split <;> simp_all
  | cons r rest ih =>
    intro acc
    simp only [List.foldl_cons, List.map_cons, firstNonEmptyStr]
    rw [ih]
    simp only [mergeStep]
    by_cases ha : acc.evaluation_date = [] <;> by_cases hr : r.evaluation_date = [] <;>
      simp_all

theorem foldl_mergeStep_carrier {α : Type} (l : List (ExtractionResult α)) :
    ∀ acc : ExtractionResult α,
      (l.foldl mergeStep acc).carrier =
        if acc.carrier = [] then firstNonEmptyStr (l.map (·.carrier))
        else acc.carrier := by
  induction l with
  | nil =>
    intro acc
    simp only [List.foldl_nil, List.map_nil, firstNonEmptyStr]
    split <;> simp_all
  | cons r rest ih =>
    intro acc
    simp only [List.foldl_cons, List.map_cons, firstNonEmptyStr]
    rw [ih]
    simp only [mergeStep]
    by_cases ha : acc.carrier = [] <;> by_cases hr : r.carrier = [] <;>
      simp_all

/-- C2.  The chunked extractor's merge takes `evaluation_date` and
`carrier` as the first non-empty value across the per-chunk results in
order, and `claims` as the in-order concatenation of all chunk claims
with no deduplication; in particular merging
`{evaluation_date: "", carrier: "X", claims: [a]}` then
`{evaluation_date: "2020-01-01", carrier: "Y", claims: [b]}` yields
`carrier = "X"`, `evaluation_date = "2020-01-01"`, `claims = [a, b]`. -/
theorem merge_first_wins :
    (∀ (α : Type) (results : List (ExtractionResult α)),
      (mergeChunkResults results).evaluation_date =
          firstNonEmptyStr (results.map (·.evaluation_date)) ∧
        (mergeChunkResults results).carrier = firstNonEmptyStr (results.map (·.carrier)) ∧
        (mergeChunkResults results).claims = (results.map (·.claims)).flatten) ∧
    (∀ a b : Nat,
      mergeChunkResults [⟨[], "X".toList, [a]⟩, ⟨"2020-01-01".toList, "Y".toList, [b]⟩] =
        ⟨"2020-01-01".toList, "X".toList, [a, b]⟩) := by
  constructor
  · intro α results
    refine ⟨?_, ?_, ?_⟩
    · rw [mergeChunkResults, foldl_mergeStep_evaluation_date]
      rfl
    · rw [mergeChunkResults, foldl_mergeStep_carrier]
      rfl
    · rw [mergeChunkResults, foldl_mergeStep_claims]
      rfl
  · intro a b
    rfl

theorem classify_lob_fallback_zero {text : Str}
    (h1 : auto_hits.countP (fun k => containsSub (pyUpper text) k) = 0)
    (h2 : gl_hits.countP (fun k => containsSub (pyUpper text) k) = 0)
    (h3 : wc_hits.countP (fun k => containsSub (pyUpper text) k) = 0) :
    classify_lob_fallback text = "AUTO".toList := by
  simp only [classify_lob_fallback, h1, h2, h3]
  norm_num

/-- C3.  The multi-label classifier never returns an empty list; and when
the text contains none of the classifier's domain keywords and every
oracle invocation fails, it returns exactly `["AUTO"]`. -/
theorem multi_label_nonempty :
    (∀ (multiResp : Option (List Str)) (singleResp : Option Str) (text : Str),
      classify_lobs_multi multiResp singleResp text ≠ []) ∧
    (∀ text : Str,
      (∀ k ∈ auto_hits ++ gl_hits ++ wc_hits, containsSub (pyUpper text) k = false) →
      classify_lobs_multi none none text = ["AUTO".toList]) := by
  constructor
  · intro multiResp singleResp text
    unfold classify_lobs_multi
    split
    · assumption
    · split
      · assumption
      · split
        · exact List.cons_ne_nil _ _
        · exact List.cons_ne_nil _ _
  · intro text h
    have hA : ∀ k ∈ auto_hits, containsSub (pyUpper text) k = false := by
      intro k hk
      exact h k (by simp [hk])
    have hGL : ∀ k ∈ gl_hits, containsSub (pyUpper text) k = false := by
      intro k hk
      exact h k (by simp [hk])
    have hWC : ∀ k ∈ wc_hits, containsSub (pyUpper text) k = false := by
      intro k hk
      exact h k (by simp [hk])
    have hanyA : auto_hits.any (fun k => containsSub (pyUpper text) k) = false := by
      simp only [List.any_eq_false]
      intro k hk
      simp [hA k hk]
    have hanyGL : gl_hits.any (fun k => containsSub (pyUpper text) k) = false := by
      simp only [List.any_eq_false]
      intro k hk
      simp [hGL k hk]
    have hanyWC : wc_hits.any (fun k => containsSub (pyUpper text) k) = false := by
      simp only [List.any_eq_false]
      intro k hk
      simp [hWC k hk]
    have hfound : keywordFound (pyUpper text) = [] := by
      simp [keywordFound, hanyA, hanyGL, hanyWC]
    have hfb : classify_lob none text = "AUTO".toList := by
      show classify_lob_fallback text = "AUTO".toList
      apply classify_lob_fallback_zero
      · exact List.countP_eq_zero.mpr (by intro k hk; simp [hA k hk])
      · exact List.countP_eq_zero.mpr (by intro k hk; simp [hGL k hk])
      · exact List.countP_eq_zero.mpr (by intro k hk; simp [hWC k hk])
    unfold classify_lobs_multi
    rw [if_neg (by simp), if_neg (by simp [hfound]), if_pos (by rw [hfb]; decide)]
    rw [hfb]

theorem multi_label_nonempty_witness :
    (∀ k ∈ auto_hits ++ gl_hits ++ wc_hits,
      containsSub (pyUpper "hello world".toList) k = false) ∧
    classify_lobs_multi none none "hello world".toList = ["AUTO".toList] :=
  ⟨by decide, multi_label_nonempty.2 "hello world".toList (by decide)⟩

/-- C7.  The single-chunk extractor returns the parsed object (with
`evaluation_date` and `carrier` defaulted to `""` when absent) exactly
when the oracle response contains a brace-delimited substring decoding to
a JSON object with a `claims` key holding a list; for every other
response — exception, no braces, decode failure, or wrong top-level
shape — it returns exactly the zero-value result.  As a total function
of the abstracted response it never raises. -/
theorem extract_llm_shape :
    ∀ (resp : Option Str) (jloads : Str → Option JVal),
      (∀ content s r kvs l, resp = some content →
        pyFindIdx content obraceChar = some s →
        pyRfindIdx content cbraceChar = some r → s < r + 1 →
        jloads (sliceStr content s (r + 1)) = some (JVal.jobj kvs) →
        jlookup kvs "claims" = some (JVal.jarr l) →
        extract_fields_llm resp jloads =
          JVal.jobj (setdefaultKV (setdefaultKV kvs "evaluation_date" (JVal.jstr ""))
            "carrier" (JVal.jstr ""))) ∧
      (¬llmAccepts resp jloads → extract_fields_llm resp jloads = zeroExtractJson) := by
  intro resp jloads
  constructor
  · intro content s r kvs l hresp hfind hrfind hlt hloads hclaims
    subst hresp
    simp only [extract_fields_llm, hfind, hrfind, hloads, hclaims, if_pos hlt]
  · intro hnot
    cases resp with
    | none => rfl
    | some content =>
      cases hfind : pyFindIdx content obraceChar with
      | none => simp only [extract_fields_llm, hfind]
      | some s =>
        cases hrfind : pyRfindIdx content cbraceChar with
        | none => simp only [extract_fields_llm, hfind, hrfind]
        | some r =>
          by_cases hlt : s < r + 1
          · cases hloads : jloads (sliceStr content s (r + 1)) with
            | none => simp only [extract_fields_llm, hfind, hrfind, if_pos hlt, hloads]
            | some v =>
              cases v with
              | jobj kvs =>
                cases hclaims : jlookup kvs "claims" with
                | none =>
                  simp only [extract_fields_llm, hfind, hrfind, if_pos hlt, hloads, hclaims]
                | some w =>
                  cases w with
                  | jarr l =>
                    exact absurd ⟨content, s, r, kvs, l, rfl, hfind, hrfind, hlt,
                      hloads, hclaims⟩ hnot
                  | jstr a =>
                    simp only [extract_fields_llm, hfind, hrfind, if_pos hlt, hloads, hclaims]
                  | jnum a =>
                    simp only [extract_fields_llm, hfind, hrfind, if_pos hlt, hloads, hclaims]
                  | jbool a =>
                    simp only [extract_fields_llm, hfind, hrfind, if_pos hlt, hloads, hclaims]
                  | jnull =>
                    simp only [extract_fields_llm, hfind, hrfind, if_pos hlt, hloads, hclaims]
                  | jobj a =>
                    simp only [extract_fields_llm, hfind, hrfind, if_pos hlt, hloads, hclaims]
              | jstr a => simp only [extract_fields_llm, hfind, hrfind, if_pos hlt, hloads]
              | jnum a => simp only [extract_fields_llm, hfind, hrfind, if_pos hlt, hloads]
              | jbool a => simp only [extract_fields_llm, hfind, hrfind, if_pos hlt, hloads]
              | jnull => simp only [extract_fields_llm, hfind, hrfind, if_pos hlt, hloads]
              | jarr a => simp only [extract_fields_llm, hfind, hrfind, if_pos hlt, hloads]
          · simp only [extract_fields_llm, hfind, hrfind, if_neg hlt]

theorem extract_llm_shape_witness :
    extract_fields_llm (some [obraceChar, cbraceChar])
        (fun _ => some (JVal.jobj [("claims", JVal.jarr [])])) =
      JVal.jobj [("claims", JVal.jarr []), ("evaluation_date", JVal.jstr ""),
        ("carrier", JVal.jstr "")] :=
  (extract_llm_shape (some [obraceChar, cbraceChar])
      (fun _ => some (JVal.jobj [("claims", JVal.jarr [])]))).1
    [obraceChar, cbraceChar] 0 1 [("claims", JVal.jarr [])] [] rfl (by decide)
    (by decide) (by decide) rfl rfl

/-! ## Money normalization lemmas -/

theorem takeWhile_append_all {p : Char → Bool} {d x : Str}
    (hd : ∀ c ∈ d, p c = true) (hx : ∀ c, x.head? = some c → p c = false) :
    (d ++ x).takeWhile p = d := by
  induction d with
  | nil =>
    cases x with
    | nil => rfl
    | cons c rest =>
      simp [List.takeWhile_cons, hx c rfl]
  | cons c d ih =>
    have hc : p c = true := hd c (by simp)
    simp only [List.cons_append, List.takeWhile_cons, hc, if_true]
    rw [ih (fun e he => hd e (by simp [he]))]

theorem isDigit_not_sign {c : Char} (h : c.isDigit = true) : isMoneySign c = false := by
  unfold isMoneySign
  by_cases h1 : c = '-'
  · subst h1
    exact absurd h (by decide)
  · by_cases h2 : c = '$'
    · subst h2
      exact absurd h (by decide)
    · simp [h1, h2]

theorem takeSign_eq (cs : Str) :
    cs = (takeSign cs).1 ++ (takeSign cs).2 ∧
    ((takeSign cs).1 = [] ∨ ∃ c, (takeSign cs).1 = [c] ∧ isMoneySign c = true) := by
  cases cs with
  | nil => simp [takeSign]
  | cons c rest =>
    by_cases h : isMoneySign c = true
    · simp [takeSign, h]
    · simp [takeSign, h]

theorem takeSign_digit_head {c : Char} {rest : Str} (h : c.isDigit = true) :
    takeSign (c :: rest) = ([], c :: rest) := by
  simp [takeSign, isDigit_not_sign h]

theorem takeDigitsUpTo3_eq (cs : Str) :
    cs = (takeDigitsUpTo3 cs).1 ++ (takeDigitsUpTo3 cs).2 ∧
    (∀ c ∈ (takeDigitsUpTo3 cs).1, c.isDigit = true) ∧
    (takeDigitsUpTo3 cs).1.length ≤ 3 := by
  refine ⟨?_, ?_, ?_⟩
  · show cs = (cs.takeWhile Char.isDigit).take 3 ++
      cs.drop ((cs.takeWhile Char.isDigit).take 3).length
    set d := (cs.takeWhile Char.isDigit).take 3 with hd
    have hpre : d <+: cs := (List.take_prefix 3 _).trans (List.takeWhile_prefix _)
    have h1 : d = cs.take d.length := List.prefix_iff_eq_take.mp hpre
    calc cs = cs.take d.length ++ cs.drop d.length := (List.take_append_drop _ _).symm
      _ = d ++ cs.drop d.length := by rw [← h1]
  · intro c hc
    have h1 : c ∈ cs.takeWhile Char.isDigit := List.take_subset _ _ hc
    exact List.mem_takeWhile_imp h1
  · unfold takeDigitsUpTo3
    simp only [List.length_take]
    omega

theorem takeDigitsUpTo3_rematch {d x : Str} (hd : ∀ c ∈ d, c.isDigit = true)
    (hlen : d.length ≤ 3) (hx : ∀ c, x.head? = some c → c.isDigit = false) :
    takeDigitsUpTo3 (d ++ x) = (d, x) := by
  have htw : (d ++ x).takeWhile Char.isDigit = d := takeWhile_append_all hd hx
  unfold takeDigitsUpTo3
  rw [htw, List.take_of_length_le hlen, List.drop_left]

theorem takeCommaGroups_short {cs : Str} (h : cs.length < 4) :
    takeCommaGroups cs = ([], cs) := by
  match cs with
  | [] => rfl
  | [c0] => rfl
  | [c0, a] => rfl
  | [c0, a, b] => rfl
  | c0 :: a :: b :: c :: rest => simp at h; omega

theorem takeCommaGroups_head_ne {cs : Str}
    (h : ∀ c, cs.head? = some c → c ≠ ',') : takeCommaGroups cs = ([], cs) := by
  match cs with
  | [] => rfl
  | [c0] => rfl
  | [c0, a] => rfl
  | [c0, a, b] => rfl
  | c0 :: a :: b :: c :: rest =>
    have hc0 : c0 ≠ ',' := h c0 rfl
    rw [takeCommaGroups, if_neg (by tauto)]

theorem takeCommaGroups_spec : ∀ n (cs : Str), cs.length ≤ n →
    cs = (takeCommaGroups cs).1 ++ (takeCommaGroups cs).2 ∧
    GroupsShape (takeCommaGroups cs).1 ∧
    takeCommaGroups (takeCommaGroups cs).2 = ([], (takeCommaGroups cs).2) := by
  intro n
  induction n with
  | zero =>
    intro cs hlen
    have : cs = [] := List.length_eq_zero.mp (by omega)
    subst this
    exact ⟨rfl, GroupsShape.nil, rfl⟩
  | succ n ih =>
    intro cs hlen
    match cs with
    | [] => exact ⟨rfl, GroupsShape.nil, rfl⟩
    | [c0] => exact ⟨rfl, GroupsShape.nil, rfl⟩
    | [c0, a] => exact ⟨rfl, GroupsShape.nil, rfl⟩
    | [c0, a, b] => exact ⟨rfl, GroupsShape.nil, rfl⟩
    | c0 :: a :: b :: c :: rest =>
      by_cases hc : c0 = ',' ∧ a.isDigit = true ∧ b.isDigit = true ∧ c.isDigit = true
      · have hrest : rest.length ≤ n := by
          simp at hlen
          omega
        rcases ih rest hrest with ⟨h1, h2, h3⟩
        rcases hc with ⟨hc0, ha, hb, hcc⟩
        subst hc0
        rw [takeCommaGroups, if_pos (by tauto)]
        refine ⟨?_, ?_, ?_⟩
        · simp only [List.cons_append]
          rw [← h1]
        · exact GroupsShape.cons a b c _ ha hb hcc h2
        · exact h3
      · rw [takeCommaGroups, if_neg hc]
        refine ⟨rfl, GroupsShape.nil, ?_⟩
        rw [takeCommaGroups, if_neg hc]

theorem takeCommaGroups_rematch {g r : Str} (hg : GroupsShape g)
    (hr : takeCommaGroups r = ([], r)) : takeCommaGroups (g ++ r) = (g, r) := by
  induction hg with
  | nil => simpa using hr
  | cons a b c g' ha hb hcc hshape ih =>
    show takeCommaGroups (',' :: a :: b :: c :: (g' ++ r)) = _
    rw [takeCommaGroups, if_pos (by tauto), ih]

theorem GroupsShape_head {g : Str} (hg : GroupsShape g) :
    ∀ c, g.head? = some c → c = ',' := by
  cases hg with
  | nil => intro c h; simp at h
  | cons a b c g' ha hb hcc hshape =>
    intro e he
    simp at he
    exact he.symm

theorem takeFrac_spec (cs : Str) :
    cs = (takeFrac cs).1 ++ (takeFrac cs).2 ∧
    ((takeFrac cs).1 = [] ∨ ∃ ds, (takeFrac cs).1 = '.' :: ds ∧ ds ≠ [] ∧
      ∀ c ∈ ds, c.isDigit = true) := by
  cases cs with
  | nil => simp [takeFrac]
  | cons c rest =>
    by_cases hdot : c = '.'
    · subst hdot
      by_cases hds : rest.takeWhile Char.isDigit = []
      · simp [takeFrac, hds]
      · rw [takeFrac, if_pos rfl, if_neg hds]
        constructor
        · show '.' :: rest = ('.' :: rest.takeWhile Char.isDigit) ++
            rest.drop (rest.takeWhile Char.isDigit).length
          simp only [List.cons_append, List.cons.injEq, true_and]
          set d := rest.takeWhile Char.isDigit with hd
          have hpre : d <+: rest := List.takeWhile_prefix _
          have h1 : d = rest.take d.length := List.prefix_iff_eq_take.mp hpre
          calc rest = rest.take d.length ++ rest.drop d.length :=
                (List.take_append_drop _ _).symm
            _ = d ++ rest.drop d.length := by rw [← h1]
        · right
          exact ⟨_, rfl, hds, fun e he => List.mem_takeWhile_imp he⟩
    · rw [takeFrac, if_neg hdot]
      simp

theorem takeFrac_rematch {f : Str}
    (hf : f = [] ∨ ∃ ds, f = '.' :: ds ∧ ds ≠ [] ∧ ∀ c ∈ ds, c.isDigit = true) :
    takeFrac f = (f, []) := by
  rcases hf with rfl | ⟨ds, rfl, hne, hds⟩
  · rfl
  · have htw : ds.takeWhile Char.isDigit = ds := by
      have := @takeWhile_append_all Char.isDigit ds [] hds (by intro c h; simp at h)
      simpa using this
    rw [takeFrac, if_pos rfl, if_neg (by rw [htw]; exact hne), htw, List.drop_length]

theorem moneyAlt1_spec {cs m r : Str} (h : moneyAlt1 cs = some (m, r)) :
    ∃ sg d gs f, m = sg ++ d ++ gs ++ f ∧
      (sg = [] ∨ ∃ c, sg = [c] ∧ isMoneySign c = true) ∧
      d ≠ [] ∧ (∀ c ∈ d, c.isDigit = true) ∧ d.length ≤ 3 ∧
      GroupsShape gs ∧
      (f = [] ∨ ∃ ds, f = '.' :: ds ∧ ds ≠ [] ∧ ∀ c ∈ ds, c.isDigit = true) := by
  unfold moneyAlt1 at h
  split at h
  · exact absurd h (by simp)
  · next hne =>
    injection h with h
    have hm : m = _ := congrArg Prod.fst h.symm
    refine ⟨(takeSign cs).1, (takeDigitsUpTo3 (takeSign cs).2).1,
      (takeCommaGroups (takeDigitsUpTo3 (takeSign cs).2).2).1,
      (takeFrac (takeCommaGroups (takeDigitsUpTo3 (takeSign cs).2).2).2).1,
      ?_, ?_, ?_, ?_, ?_, ?_, ?_⟩
    · rw [hm]
    · exact (takeSign_eq cs).2
    · exact hne
    · exact (takeDigitsUpTo3_eq (takeSign cs).2).2.1
    · exact (takeDigitsUpTo3_eq (takeSign cs).2).2.2
    · exact (takeCommaGroups_spec ((takeDigitsUpTo3 (takeSign cs).2).2.length) _
        (Nat.le_refl _)).2.1
    · exact (takeFrac_spec _).2

theorem takeSign_rematch {sg rest : Str}
    (hsg : sg = [] ∨ ∃ c, sg = [c] ∧ isMoneySign c = true)
    (hrest : ∀ c, rest.head? = some c → c.isDigit = true) :
    takeSign (sg ++ rest) = (sg, rest) := by
  rcases hsg with rfl | ⟨c, rfl, hc⟩
  · cases rest with
    | nil => rfl
    | cons c r =>
      have := hrest c rfl
      exact takeSign_digit_head this
  · simp [takeSign, hc]

theorem moneyAlt1_rematch {sg d gs f : Str}
    (hsg : sg = [] ∨ ∃ c, sg = [c] ∧ isMoneySign c = true)
    (hdne : d ≠ []) (hd : ∀ c ∈ d, c.isDigit = true) (hdlen : d.length ≤ 3)
    (hgs : GroupsShape gs)
    (hf : f = [] ∨ ∃ ds, f = '.' :: ds ∧ ds ≠ [] ∧ ∀ c ∈ ds, c.isDigit = true) :
    moneyAlt1 (sg ++ d ++ gs ++ f) = some (sg ++ d ++ gs ++ f, []) := by
  have hdhead : ∀ c, d.head? = some c → c.isDigit = true := by
    intro c hc
    cases d with
    | nil => simp at hc
    | cons a r =>
      simp at hc
      subst hc
      simp at hd
      exact hd.1
  have hgfhead : ∀ c, (gs ++ f).head? = some c → c.isDigit = false := by
    intro c hc
    cases gs with
    | nil =>
      simp only [List.nil_append] at hc
      rcases hf with rfl | ⟨ds, rfl, hne', hds⟩
      · simp at hc
      · simp at hc
        subst hc
        decide
    | cons g0 grest =>
      have hg0 : g0 = ',' := GroupsShape_head hgs g0 rfl
      subst hg0
      simp at hc
      subst hc
      decide
  have h1 : takeSign (sg ++ (d ++ (gs ++ f))) = (sg, d ++ (gs ++ f)) := by
    apply takeSign_rematch hsg
    intro c hc
    cases d with
    | nil => exact absurd rfl hdne
    | cons a r =>
      simp at hc
      subst hc
      simp at hd
      exact hd.1
  have h2 : takeDigitsUpTo3 (d ++ (gs ++ f)) = (d, gs ++ f) :=
    takeDigitsUpTo3_rematch hd hdlen hgfhead
  have h3 : takeCommaGroups (gs ++ f) = (gs, f) := by
    apply takeCommaGroups_rematch hgs
    rcases hf with rfl | ⟨ds, rfl, hne', hds⟩
    · rfl
    · exact takeCommaGroups_head_ne (by intro c hc; simp at hc; subst hc; decide)
  have h4 : takeFrac f = (f, []) := takeFrac_rematch hf
  have hassoc : sg ++ d ++ gs ++ f = sg ++ (d ++ (gs ++ f)) := by
    simp [List.append_assoc]
  rw [hassoc]
  unfold moneyAlt1
  simp only [h1, h2, h3, h4]
  rw [if_neg hdne]
  simp [List.append_assoc]

theorem moneyAlt2_none {cs : Str} (h : moneyAlt1 cs = none) : moneyAlt2 cs = none := by
  unfold moneyAlt1 at h
  unfold moneyAlt2
  split at h
  · next hcond =>
    unfold takeDigitsUpTo3 at hcond
    simp only [List.take_eq_nil_iff] at hcond
    rcases hcond with h3 | htw
    · omega
    · rw [if_pos htw]
  · simp at h

theorem matchMoneyAt_alt1 {cs m : Str} (h : matchMoneyAt cs = some m) :
    ∃ r, moneyAlt1 cs = some (m, r) := by
  unfold matchMoneyAt at h
  cases h1 : moneyAlt1 cs with
  | some mr =>
    obtain ⟨a, b⟩ := mr
    rw [h1] at h
    simp at h
    subst h
    exact ⟨b, rfl⟩
  | none =>
    rw [h1, moneyAlt2_none h1] at h
    simp at h

theorem matchMoneyAt_self {cs m : Str} (h : matchMoneyAt cs = some m) :
    matchMoneyAt m = some m ∧ m ≠ [] := by
  rcases matchMoneyAt_alt1 h with ⟨r, h1⟩
  rcases moneyAlt1_spec h1 with ⟨sg, d, gs, f, hm, hsg, hdne, hd, hdlen, hgs, hf⟩
  subst hm
  have h2 := moneyAlt1_rematch hsg hdne hd hdlen hgs hf
  constructor
  · unfold matchMoneyAt
    rw [h2]
  · intro hemp
    rcases List.append_eq_nil.mp (List.append_eq_nil.mp
      (List.append_eq_nil.mp hemp).1).1 with ⟨_, hd0⟩
    exact hdne hd0

theorem findMoney_matched : ∀ {cs m : Str}, findMoney cs = some m →
    ∃ cs2, matchMoneyAt cs2 = some m := by
  intro cs
  induction cs with
  | nil => intro m h; simp [findMoney] at h
  | cons c rest ih =>
    intro m h
    rw [findMoney] at h
    cases h1 : matchMoneyAt (c :: rest) with
    | some m2 =>
      rw [h1] at h
      injection h with h
      subst h
      exact ⟨c :: rest, h1⟩
    | none =>
      rw [h1] at h
      exact ih h

theorem findMoney_self {m : Str} (h : matchMoneyAt m = some m) (hne : m ≠ []) :
    findMoney m = some m := by
  cases m with
  | nil => exact absurd rfl hne
  | cons c rest => rw [findMoney, h]

theorem matchMoneyAt_none_noDigit {cs : Str} (h : ∀ c ∈ cs, c.isDigit = false) :
    matchMoneyAt cs = none := by
  have hsub : ∀ c ∈ (takeSign cs).2, c.isDigit = false := by
    intro c hc
    apply h
    rw [(takeSign_eq cs).1]
    exact List.mem_append_right _ hc
  have htw : (takeSign cs).2.takeWhile Char.isDigit = [] := by
    cases h2 : (takeSign cs).2 with
    | nil => rfl
    | cons a r =>
      have ha : a.isDigit = false := hsub a (by rw [h2]; simp)
      simp [List.takeWhile_cons, ha]
  have halt1 : moneyAlt1 cs = none := by
    unfold moneyAlt1
    rw [if_pos (by show ((takeSign cs).2.takeWhile Char.isDigit).take 3 = []; rw [htw]; rfl)]
  unfold matchMoneyAt
  rw [halt1, moneyAlt2_none halt1]

theorem matchMoneyAt_head_digit {c : Char} {rest : Str} (h : c.isDigit = true) :
    ∃ m, matchMoneyAt (c :: rest) = some m := by
  have h1 : takeSign (c :: rest) = ([], c :: rest) := takeSign_digit_head h
  have h2 : (takeDigitsUpTo3 (takeSign (c :: rest)).2).1 ≠ [] := by
    rw [h1]
    show (((c :: rest) : Str).takeWhile Char.isDigit).take 3 ≠ []
    rw [List.takeWhile_cons, if_pos h]
    simp
  unfold matchMoneyAt moneyAlt1
  rw [if_neg h2]
  exact ⟨_, rfl⟩

theorem findMoney_none_noDigit : ∀ {cs : Str}, findMoney cs = none →
    ∀ c ∈ cs, c.isDigit = false := by
  intro cs
  induction cs with
  | nil => intro h c hc; simp at hc
  | cons a rest ih =>
    intro h c hc
    rw [findMoney] at h
    cases h1 : matchMoneyAt (a :: rest) with
    | some m =>
      rw [h1] at h
      simp at h
    | none =>
      rw [h1] at h
      rcases List.mem_cons.mp hc with rfl | hc2
      · by_contra hdig
        simp only [Bool.not_eq_false] at hdig
        rcases @matchMoneyAt_head_digit _ rest hdig with ⟨m, hm⟩
        rw [hm] at h1
        simp at h1
      · exact ih h c hc2

theorem noDigit_findMoney_none : ∀ {cs : Str}, (∀ c ∈ cs, c.isDigit = false) →
    findMoney cs = none := by
  intro cs
  induction cs with
  | nil => intro h; rfl
  | cons a rest ih =>
    intro h
    rw [findMoney, matchMoneyAt_none_noDigit h, ih (fun c hc => h c (by simp [hc]))]

theorem dropWhile_head_false {p : Char → Bool} : ∀ {l : Str} {c : Char},
    (l.dropWhile p).head? = some c → p c = false := by
  intro l
  induction l with
  | nil => intro c h; simp at h
  | cons a rest ih =>
    intro c h
    by_cases hp : p a
    · rw [List.dropWhile_cons, if_pos hp] at h
      exact ih h
    · rw [List.dropWhile_cons, if_neg hp] at h
      simp at h
      subst h
      simpa using hp

theorem dropWhile_eq_self_of_head {p : Char → Bool} {l : Str}
    (h : ∀ c, l.head? = some c → p c = false) : l.dropWhile p = l := by
  cases l with
  | nil => rfl
  | cons a rest => rw [List.dropWhile_cons, if_neg (by simp [h a rfl])]

theorem dropWhile_idem (p : Char → Bool) (l : Str) :
    (l.dropWhile p).dropWhile p = l.dropWhile p :=
  dropWhile_eq_self_of_head (fun _ hc => dropWhile_head_false hc)

theorem pyStrip_mem {cs : Str} {c : Char} (h : c ∈ pyStrip cs) : c ∈ cs := by
  unfold pyStrip at h
  rw [List.mem_reverse] at h
  have h2 := (List.dropWhile_sublist _).subset h
  rw [List.mem_reverse] at h2
  exact (List.dropWhile_sublist _).subset h2

theorem pyStrip_idem (cs : Str) : pyStrip (pyStrip cs) = pyStrip cs := by
  unfold pyStrip
  set u := cs.dropWhile isPySpace with hu
  set v := u.reverse.dropWhile isPySpace with hv
  by_cases hvnil : v = []
  · rw [hvnil]
    simp
  · have hstep : v.reverse.dropWhile isPySpace = v.reverse := by
      apply dropWhile_eq_self_of_head
      intro c hc
      rw [List.head?_reverse] at hc
      have hsuf : v <:+ u.reverse := by
        rw [hv]
        exact List.dropWhile_suffix _
      rcases hsuf with ⟨t, ht⟩
      have hgl : u.reverse.getLast? = v.getLast? := by
        rw [← ht]
        exact List.getLast?_append_of_ne_nil t hvnil
      have hh : u.reverse.getLast? = u.head? := List.getLast?_reverse u
      have hcu : u.head? = some c := by
        rw [← hh, hgl]
        exact hc
      rw [hu] at hcu
      exact dropWhile_head_false hcu
    rw [hstep]
    rw [List.reverse_reverse]
    rw [hv, dropWhile_idem]

/-- C9.  The money normalizer is total and idempotent: it returns the
first substring matching the currency pattern or, failing that, the
stripped token; applying it twice equals applying it once, and
normalizing the already-normalized value `"1,234.56"` returns the same
string. -/
theorem money_idempotent :
    (∀ s : Str, parse_money (parse_money s) = parse_money s) ∧
    parse_money ("1,234.56".toList) = "1,234.56".toList := by
  constructor
  · intro s
    cases hf : findMoney s with
    | some m =>
      have h1 : parse_money s = m := by unfold parse_money; rw [hf]
      rcases findMoney_matched hf with ⟨cs2, hm⟩
      rcases matchMoneyAt_self hm with ⟨h2, h3⟩
      rw [h1]
      unfold parse_money
      rw [findMoney_self h2 h3]
    | none =>
      have h1 : parse_money s = pyStrip s := by unfold parse_money; rw [hf]
      have hnd := findMoney_none_noDigit hf
      have hnd2 : ∀ c ∈ pyStrip s, c.isDigit = false := fun c hc => hnd c (pyStrip_mem hc)
      rw [h1]
      unfold parse_money
      rw [noDigit_findMoney_none hnd2, pyStrip_idem]
  · decide

theorem candidateRows_cons_skip (ln : Str) (rest : List Str)
    (h3 : (splitParts ln).length < 3) :
    candidateRows (ln :: rest) = candidateRows rest :=
  List.filterMap_cons_none (by simp [h3])

theorem candidateRows_cons_keep (ln : Str) (rest : List Str)
    (h3 : ¬(splitParts ln).length < 3) :
    candidateRows (ln :: rest) = assignRow (splitParts ln) :: candidateRows rest :=
  List.filterMap_cons_some (by simp [h3])

theorem rowsFromLines_eq_filter : ∀ (lines : List Str) (acc : List WCRow),
    lines.foldl (fun acc ln =>
      if (splitParts ln).length < 3 then acc
      else if (assignRow (splitParts ln)).claim_number ≠ [] then
        acc ++ [assignRow (splitParts ln)]
      else acc) acc =
    acc ++ (candidateRows lines).filter (fun r => r.claim_number ≠ []) := by
  intro lines
  induction lines with
  | nil =>
    intro acc
    simp [candidateRows]
  | cons ln rest ih =>
    intro acc
    rw [List.foldl_cons]
    by_cases h3 : (splitParts ln).length < 3
    · rw [if_pos h3, ih, candidateRows_cons_skip ln rest h3]
    · rw [if_neg h3, candidateRows_cons_keep ln rest h3, List.filter_cons]
      by_cases hcn : (assignRow (splitParts ln)).claim_number ≠ []
      · rw [if_pos hcn, ih, if_pos (decide_eq_true hcn)]
        simp
      · rw [if_neg hcn, ih, if_neg (by simp only [decide_eq_true_eq]; exact hcn)]

/-- C4.  The heuristic WC extractor's row loop keeps exactly the
greedily assigned rows whose claim-number slot was resolved — a parsed
row with an empty claim number is excluded no matter which other fields
were assigned — and consequently every claim record it returns has a
non-empty claim number. -/
theorem heuristic_drop_rule :
    (∀ lines : List Str, rowsFromLines lines =
      (candidateRows lines).filter (fun r => r.claim_number ≠ [])) ∧
    (∀ (text : Str) (r : WCRow), r ∈ (heuristic_extract_wc text).claims →
      r.claim_number ≠ []) := by
  have key := rowsFromLines_eq_filter
  constructor
  · intro lines
    unfold rowsFromLines
    rw [key lines []]
    rfl
  · intro text r hr
    have hclaims : (heuristic_extract_wc text).claims =
        match findHeaderIdx (heurLines text) with
        | some i => rowsFromLines ((heurLines text).drop (i + 1))
        | none => [] := rfl
    cases hidx : findHeaderIdx (heurLines text) with
    | none =>
      have h2 : (heuristic_extract_wc text).claims = [] := by rw [hclaims, hidx]
      rw [h2] at hr
      simp at hr
    | some i =>
      have h2 : (heuristic_extract_wc text).claims =
          rowsFromLines ((heurLines text).drop (i + 1)) := by rw [hclaims, hidx]
      rw [h2] at hr
      unfold rowsFromLines at hr
      rw [key _ []] at hr
      simp only [List.nil_append] at hr
      have := (List.mem_filter.mp hr).2
      simpa using this

theorem heuristic_drop_rule_witness :
    keptRow ∈ (heuristic_extract_wc dropRuleText).claims ∧ keptRow.claim_number ≠ [] :=
  ⟨by decide, heuristic_drop_rule.2 dropRuleText keptRow (by decide)⟩

/-- C5 (counterexample).  On the scenario text the heuristic extractor
does not produce a claim with `Indemnity_paid_loss = "1,200.00"`: the
money columns are keyword-selected, and the bare token `$1,200.00`
contains no column keyword, so the slot stays empty. -/
theorem wc_scenario_cex :
    ¬((heuristic_extract_wc wcScenarioText).claims.map
        (fun r => r.Indemnity_paid_loss) = ["1,200.00".toList]) := by
  decide

/-- C5 (amended).  The scenario text yields exactly one claim record with
`claim_number = "00012345"` and `loss_date = "01/02/2021"`, and all money
fields (`Indemnity_paid_loss`, `Medical_paid_loss`, `Indemnity_reserve`,
`Medical_reserve`, `ALAE`) empty, because a money column is assigned only
from a token containing that column's keyword. -/
theorem wc_scenario_amended :
    heuristic_extract_wc wcScenarioText =
      { evaluation_date := [], carrier := [],
        claims := [{ claim_number := "00012345".toList,
                     loss_date := "01/02/2021".toList,
                     Indemnity_paid_loss := [], Medical_paid_loss := [],
                     Indemnity_reserve := [], Medical_reserve := [], ALAE := [] }] } := by
  decide

theorem findHeaderIdxAux_spec : ∀ (lines : List Str) (i0 i : Nat),
    findHeaderIdxAux i0 lines = some i →
    i0 ≤ i ∧ ∃ ln, lines.get? (i - i0) = some ln ∧ 2 ≤ headerHits ln ∧
      ∀ j ln2, j < i - i0 → lines.get? j = some ln2 → headerHits ln2 < 2 := by
  intro lines
  induction lines with
  | nil =>
    intro i0 i h
    simp [findHeaderIdxAux] at h
  | cons ln rest ih =>
    intro i0 i h
    rw [findHeaderIdxAux] at h
    by_cases hh : 2 ≤ headerHits ln
    · rw [if_pos hh] at h
      injection h with h
      subst h
      refine ⟨Nat.le_refl _, ln, ?_, hh, ?_⟩
      · have h0 : i0 - i0 = 0 := by omega
        rw [h0, List.get?_cons_zero]
      · intro j ln2 hj
        omega
    · rw [if_neg hh] at h
      rcases ih (i0 + 1) i h with ⟨hle, ln1, hget, hhits, hprev⟩
      refine ⟨by omega, ln1, ?_, hhits, ?_⟩
      · have hsucc : i - i0 = (i - (i0 + 1)) + 1 := by omega
        rw [hsucc, List.get?_cons_succ]
        exact hget
      · intro j ln2 hj hget2
        cases j with
        | zero =>
          rw [List.get?_cons_zero] at hget2
          injection hget2 with hget2
          subst hget2
          omega
        | succ j2 =>
          rw [List.get?_cons_succ] at hget2
          exact hprev j2 ln2 (by omega) hget2

/-- C8.  The heuristic WC extractor selects as header the first
non-empty stripped line with keyword hits in at least 2 of the 7
column-keyword groups; only the lines strictly after it are parsed into
rows, and when no line qualifies the claims list is empty. -/
theorem header_detection : ∀ text : Str,
    (findHeaderIdx (heurLines text) = none → (heuristic_extract_wc text).claims = []) ∧
    (∀ i, findHeaderIdx (heurLines text) = some i →
      ∃ ln, (heurLines text).get? i = some ln ∧ 2 ≤ headerHits ln ∧
        (∀ j ln2, j < i → (heurLines text).get? j = some ln2 → headerHits ln2 < 2) ∧
        (heuristic_extract_wc text).claims =
          rowsFromLines ((heurLines text).drop (i + 1))) := by
  intro text
  have hclaims : (heuristic_extract_wc text).claims =
      match findHeaderIdx (heurLines text) with
      | some i => rowsFromLines ((heurLines text).drop (i + 1))
      | none => [] := rfl
  constructor
  · intro hnone
    rw [hclaims, hnone]
  · intro i hsome
    rcases findHeaderIdxAux_spec (heurLines text) 0 i hsome with ⟨_, ln, hget, hhits, hprev⟩
    refine ⟨ln, hget, hhits, ?_, ?_⟩
    · intro j ln2 hj hg
      exact hprev j ln2 (by omega) hg
    · rw [hclaims, hsome]

theorem header_detection_witness :
    ∃ ln, (heurLines headerDemoText).get? 1 = some ln ∧ 2 ≤ headerHits ln ∧
      (∀ j ln2, j < 1 → (heurLines headerDemoText).get? j = some ln2 →
        headerHits ln2 < 2) ∧
      (heuristic_extract_wc headerDemoText).claims =
        rowsFromLines ((heurLines headerDemoText).drop 2) :=
  (header_detection headerDemoText).2 1 (by decide)

/-- C6.  The WC fallback of the orchestrator: for any LOB other than
`"WC"` (in particular `"AUTO"` and `"GENERAL LIABILITY"`), or for WC with
a non-empty claims list, the extraction result passes through unchanged;
for WC with an empty claims list only `claims` is replaced by the
heuristic's claims, while `evaluation_date` and `carrier` keep the
extractor's values when non-empty and take the heuristic's values only
when empty. -/
theorem orchestrator_wc_fallback :
    ∀ (lob : Str) (fields : ExtractionResult WCRow) (text : Str),
      ((lob ≠ "WC".toList ∨ fields.claims ≠ []) → applyWcFallback lob fields text = fields) ∧
      (lob = "WC".toList → fields.claims = [] →
        (applyWcFallback lob fields text).claims = (heuristic_extract_wc text).claims ∧
        (fields.evaluation_date ≠ [] →
          (applyWcFallback lob fields text).evaluation_date = fields.evaluation_date) ∧
        (fields.evaluation_date = [] →
          (applyWcFallback lob fields text).evaluation_date =
            (heuristic_extract_wc text).evaluation_date) ∧
        (fields.carrier ≠ [] →
          (applyWcFallback lob fields text).carrier = fields.carrier) ∧
        (fields.carrier = [] →
          (applyWcFallback lob fields text).carrier = (heuristic_extract_wc text).carrier)) := by
  intro lob fields text
  constructor
  · intro h
    unfold applyWcFallback
    rw [if_neg (by tauto)]
  · intro hlob hclaims
    unfold applyWcFallback
    rw [if_pos ⟨hlob, hclaims⟩]
    refine ⟨rfl, ?_, ?_, ?_, ?_⟩
    · intro hne
      simp [hne]
    · intro he
      simp [he]
    · intro hne
      simp [hne]
    · intro he
      simp [he]

theorem orchestrator_wc_fallback_witness :
    applyWcFallback ("AUTO".toList) ⟨"d".toList, "c".toList, [emptyWCRow]⟩ [] =
      ⟨"d".toList, "c".toList, [emptyWCRow]⟩ ∧
    (applyWcFallback ("WC".toList) ⟨[], "c".toList, []⟩ []).claims =
      (heuristic_extract_wc []).claims :=
  ⟨(orchestrator_wc_fallback ("AUTO".toList) ⟨"d".toList, "c".toList, [emptyWCRow]⟩ []).1
      (Or.inl (by decide)),
    ((orchestrator_wc_fallback ("WC".toList) ⟨[], "c".toList, []⟩ []).2 rfl rfl).1⟩
